import Mathlib

/-
Verification of the tile acquisition and caching core of the QT-thesis
vector-map renderer.

The development shallowly embeds:
  * `getPbfLink` (main.cpp): URL-template substitution of the literal
    placeholders for the tile coordinate, built from three sequential
    `QString::replace` calls;
  * the `Bach::LoadedTileState` enum, the `TileLoader::StoredTile` record
    with its `isReadyToRender` / `newPending` members (TileURL header);
  * the tile registry life-cycle (`requestTiles`, load-job dispatch,
    network fetch, terminal transition) as a small-step transition system
    over an explicit registry state.

Strings are modelled as `List Char`; machine integers as `Nat` (tile
coordinates are non-negative: z fits u8, x and y fit u32).
-/

/-- A tile coordinate: zoom level plus x/y position, as used for the map key
and for URL substitution. -/
structure TileCoord where
  zoom : Nat
  x : Nat
  y : Nat
deriving DecidableEq

namespace Bach

/-- The per-tile load state enum from the TileURL header. -/
inductive LoadedTileState where
  | Ok
  | Pending
  | ParsingFailed
  | Cancelled
  | UnknownError
deriving DecidableEq

end Bach

/-- The parsed vector tile. Opaque to the core: produced by the external
parser, read-only afterwards; modelled as a wrapped identifier. -/
structure VectorTile where
  data : Nat
deriving DecidableEq

/-- The registry entry for one tile: its load state and (for `Ok` entries)
the owned parsed tile. Mirrors `TileLoader::StoredTile`, whose only fields
are `state` and the `unique_ptr` payload `tile`. -/
structure StoredTile where
  state : Bach.LoadedTileState
  tile : Option VectorTile
deriving DecidableEq

/-- Member `StoredTile::isReadyToRender`: whether this tile is safe to return to
rendering, i.e. `state == Bach::LoadedTileState::Ok`. -/
def StoredTile.isReadyToRender (st : StoredTile) : Bool :=
  decide (st.state = Bach.LoadedTileState.Ok)

/-- Member `StoredTile::newPending`: a fresh entry in the `Pending` state with no
payload. -/
def StoredTile.newPending : StoredTile :=
  { state := Bach.LoadedTileState.Pending, tile := none }

/- ---------------------------------------------------------------------
URL-template substitution (`getPbfLink` in main.cpp).
--------------------------------------------------------------------- -/

/-- The decimal digit character for a value below ten (`QString::number`
digit table). -/
def decToChar : Nat → Char
  | 0 => '0'
  | 1 => '1'
  | 2 => '2'
  | 3 => '3'
  | 4 => '4'
  | 5 => '5'
  | 6 => '6'
  | 7 => '7'
  | 8 => '8'
  | _ => '9'

/-- Fuel-indexed decimal printer; `fuel` bounds the digit count. -/
def decimalCharsAux : Nat → Nat → List Char
  | 0, _ => []
  | fuel + 1, n =>
    if n < 10 then [decToChar n]
    else decimalCharsAux fuel (n / 10) ++ [decToChar (n % 10)]

/-- The decimal representation of a natural number, most significant digit
first, as produced by `QString::number`. -/
def decimalChars (n : Nat) : List Char := decimalCharsAux (n + 1) n

/-- The ten decimal digit characters. -/
def digitChars : List Char := ['0', '1', '2', '3', '4', '5', '6', '7', '8', '9']

theorem decToChar_mem_digitChars (d : Nat) : decToChar d ∈ digitChars := by
  match d with
  | 0 | 1 | 2 | 3 | 4 | 5 | 6 | 7 | 8 => decide
  | n + 9 =>
    show '9' ∈ digitChars
    decide

theorem decimalCharsAux_digits (fuel : Nat) :
    ∀ n : Nat, ∀ ch ∈ decimalCharsAux fuel n, ch ∈ digitChars := by
  induction fuel with
  | zero =>
    intro n ch h
    simp [decimalCharsAux] at h
  | succ fuel ih =>
    intro n ch h
    simp only [decimalCharsAux] at h
    split at h
    · simp only [List.mem_singleton] at h
      subst h
      exact decToChar_mem_digitChars n
    · rw [List.mem_append] at h
      rcases h with h | h
      · exact ih _ ch h
      · simp only [List.mem_singleton] at h
        subst h
        exact decToChar_mem_digitChars _

theorem decimalChars_digits (n : Nat) : ∀ ch ∈ decimalChars n, ch ∈ digitChars :=
  decimalCharsAux_digits (n + 1) n

theorem decimalChars_ne_nil (n : Nat) : decimalChars n ≠ [] := by
  unfold decimalChars decimalCharsAux
  split
  · simp
  · simp

theorem digit_ne_special (ch : Char) (h : ch ∈ digitChars) :
    ch ≠ '{' ∧ ch ≠ '}' ∧ ch ≠ 'x' ∧ ch ≠ 'y' ∧ ch ≠ 'z' := by
  simp only [digitChars, List.mem_cons, List.not_mem_nil, or_false] at h
  rcases h with rfl | rfl | rfl | rfl | rfl | rfl | rfl | rfl | rfl | rfl <;> decide

/-- Embedding of `QString::replace(pattern, repl)` for a three-character pattern
`[a, b, c]`: scan left to right; on a match emit `repl` and continue after
the matched characters (the replacement is not rescanned); otherwise copy
one character. -/
def replace3 (a b c : Char) (repl : List Char) : List Char → List Char
  | x :: y :: z :: rest =>
    if x = a ∧ y = b ∧ z = c then repl ++ replace3 a b c repl rest
    else x :: replace3 a b c repl (y :: z :: rest)
  | s => s

/-- Function `getPbfLink` (main.cpp): replace every occurrence of the placeholder
for z, then for x, then for y, by the decimal coordinate components. -/
def getPbfLink (coord : TileCoord) (pbfLinkTemplate : List Char) : List Char :=
  replace3 '{' 'y' '}' (decimalChars coord.y)
    (replace3 '{' 'x' '}' (decimalChars coord.x)
      (replace3 '{' 'z' '}' (decimalChars coord.zoom) pbfLinkTemplate))

/-- Simultaneous substitution of the three placeholders in one left-to-right
scan; the spec-side description of URL building ("the template with every
occurrence of the placeholders replaced, and nothing else changed"). -/
def subst3 (dz dx dy : List Char) : List Char → List Char
  | x :: y :: z :: rest =>
    if x = '{' ∧ y = 'z' ∧ z = '}' then dz ++ subst3 dz dx dy rest
    else if x = '{' ∧ y = 'x' ∧ z = '}' then dx ++ subst3 dz dx dy rest
    else if x = '{' ∧ y = 'y' ∧ z = '}' then dy ++ subst3 dz dx dy rest
    else x :: subst3 dz dx dy (y :: z :: rest)
  | s => s

/-- The spec-side URL builder: one simultaneous pass substituting the
coordinate components for the placeholders. -/
def substPlaceholders (coord : TileCoord) (pbfLinkTemplate : List Char) : List Char :=
  subst3 (decimalChars coord.zoom) (decimalChars coord.x) (decimalChars coord.y)
    pbfLinkTemplate

/-- Whether the three-character pattern `[a, b, c]` occurs anywhere in the
string. -/
def occursPat (a b c : Char) : List Char → Bool
  | x :: y :: z :: rest =>
    decide (x = a ∧ y = b ∧ z = c) || occursPat a b c (y :: z :: rest)
  | _ => false

/-- The three-character pattern `[a, b, c]` matches at the head of the
string. -/
def matchesAt (a b c : Char) : List Char → Prop
  | x :: y :: z :: _ => x = a ∧ y = b ∧ z = c
  | _ => False

theorem matchesAt_first (a b c x : Char) (s : List Char)
    (h : matchesAt a b c (x :: s)) : x = a := by
  match s with
  | [] => exact h.elim
  | [v] => exact h.elim
  | v :: w :: t => exact h.1

theorem matchesAt_second (a b c x y : Char) (s : List Char)
    (h : matchesAt a b c (x :: y :: s)) : y = b := by
  match s with
  | [] => exact h.elim
  | w :: t => exact h.2.1

theorem matchesAt_third (a b c x y z : Char) (s : List Char)
    (h : matchesAt a b c (x :: y :: z :: s)) : z = c :=
  h.2.2

theorem not_matchesAt_head (a b c x : Char) (s : List Char) (hx : x ≠ a) :
    ¬ matchesAt a b c (x :: s) :=
  fun h => hx (matchesAt_first a b c x s h)

theorem replace3_head (a b c : Char) (r : List Char) (x : Char) (s : List Char)
    (h : ¬ matchesAt a b c (x :: s)) :
    replace3 a b c r (x :: s) = x :: replace3 a b c r s := by
  match s with
  | [] => rfl
  | [v] => rfl
  | v :: w :: t =>
    show (if x = a ∧ v = b ∧ w = c then r ++ replace3 a b c r t
      else x :: replace3 a b c r (v :: w :: t)) = x :: replace3 a b c r (v :: w :: t)
    rw [if_neg (show ¬ (x = a ∧ v = b ∧ w = c) from h)]

theorem replace3_match (a b c : Char) (r t : List Char) :
    replace3 a b c r (a :: b :: c :: t) = r ++ replace3 a b c r t := by
  show (if a = a ∧ b = b ∧ c = c then r ++ replace3 a b c r t
    else a :: replace3 a b c r (b :: c :: t)) = r ++ replace3 a b c r t
  rw [if_pos ⟨rfl, rfl, rfl⟩]

theorem replace3_append (a b c : Char) (r d t : List Char) (hd : ∀ ch ∈ d, ch ≠ a) :
    replace3 a b c r (d ++ t) = d ++ replace3 a b c r t := by
  induction d with
  | nil => rfl
  | cons ch d' ih =>
    have hch : ch ≠ a := hd ch (List.mem_cons_self ch d')
    rw [List.cons_append,
      replace3_head a b c r ch (d' ++ t) (not_matchesAt_head a b c ch _ hch),
      ih (fun c' hc => hd c' (List.mem_cons_of_mem _ hc)), List.cons_append]

theorem replace3_head_shape (a b c : Char) (r : List Char) (x : Char) (s : List Char) :
    (∃ t, replace3 a b c r (x :: s) = r ++ t) ∨
      (∃ t, replace3 a b c r (x :: s) = x :: t) := by
  match s with
  | [] => exact Or.inr ⟨[], rfl⟩
  | [v] => exact Or.inr ⟨[v], rfl⟩
  | v :: w :: t =>
    by_cases hc : x = a ∧ v = b ∧ w = c
    · left
      refine ⟨replace3 a b c r t, ?_⟩
      show (if x = a ∧ v = b ∧ w = c then r ++ replace3 a b c r t
        else x :: replace3 a b c r (v :: w :: t)) = r ++ replace3 a b c r t
      rw [if_pos hc]
    · right
      refine ⟨replace3 a b c r (v :: w :: t), ?_⟩
      show (if x = a ∧ v = b ∧ w = c then r ++ replace3 a b c r t
        else x :: replace3 a b c r (v :: w :: t)) = x :: replace3 a b c r (v :: w :: t)
      rw [if_neg hc]

theorem not_matchesAt_replace3 (m k : Char) (dk : List Char) (u : Char) (s : List Char)
    (hdig : ∀ ch ∈ dk, ch ∈ digitChars) (hne : dk ≠ [])
    (hm : ∀ ch ∈ digitChars, ch ≠ m)
    (h : ¬ matchesAt '{' m '}' (u :: s)) :
    ¬ matchesAt '{' m '}' (u :: replace3 '{' k '}' dk s) := by
  intro hmat
  match s with
  | [] => exact hmat.elim
  | [v] => exact hmat.elim
  | v :: w :: t =>
    match t with
    | [] => exact h hmat
    | t0 :: t' =>
      by_cases hk : v = '{' ∧ w = k ∧ t0 = '}'
      · obtain ⟨rfl, rfl, rfl⟩ := hk
        rw [replace3_match] at hmat
        obtain ⟨d0, dk', rfl⟩ := List.exists_cons_of_ne_nil hne
        have hd0 : d0 = m :=
          matchesAt_second '{' m '}' u d0 _ hmat
        exact hm d0 (hdig d0 (List.mem_cons_self d0 dk')) hd0
      · rw [replace3_head '{' k '}' dk v (w :: t0 :: t') hk] at hmat
        have hu : u = '{' := matchesAt_first '{' m '}' u _ hmat
        have hv : v = m := matchesAt_second '{' m '}' u v _ hmat
        have hw : w ≠ '}' := fun hww => h ⟨hu, hv, hww⟩
        rcases replace3_head_shape '{' k '}' dk w (t0 :: t') with ⟨t1, he⟩ | ⟨t1, he⟩
        · rw [he] at hmat
          obtain ⟨d0, dk', rfl⟩ := List.exists_cons_of_ne_nil hne
          have hd0 : d0 = '}' :=
            matchesAt_third '{' m '}' u v d0 _ hmat
          exact (digit_ne_special d0 (hdig d0 (List.mem_cons_self d0 dk'))).2.1 hd0
        · rw [he] at hmat
          exact hw (matchesAt_third '{' m '}' u v w _ hmat)

theorem subst3_matchz (dz dx dy t : List Char) :
    subst3 dz dx dy ('{' :: 'z' :: '}' :: t) = dz ++ subst3 dz dx dy t := by
  show (if ('{' : Char) = '{' ∧ ('z' : Char) = 'z' ∧ ('}' : Char) = '}' then
      dz ++ subst3 dz dx dy t
    else if ('{' : Char) = '{' ∧ ('z' : Char) = 'x' ∧ ('}' : Char) = '}' then
      dx ++ subst3 dz dx dy t
    else if ('{' : Char) = '{' ∧ ('z' : Char) = 'y' ∧ ('}' : Char) = '}' then
      dy ++ subst3 dz dx dy t
    else '{' :: subst3 dz dx dy ('z' :: '}' :: t)) = dz ++ subst3 dz dx dy t
  rw [if_pos ⟨rfl, rfl, rfl⟩]

theorem subst3_matchx (dz dx dy t : List Char) :
    subst3 dz dx dy ('{' :: 'x' :: '}' :: t) = dx ++ subst3 dz dx dy t := by
  show (if ('{' : Char) = '{' ∧ ('x' : Char) = 'z' ∧ ('}' : Char) = '}' then
      dz ++ subst3 dz dx dy t
    else if ('{' : Char) = '{' ∧ ('x' : Char) = 'x' ∧ ('}' : Char) = '}' then
      dx ++ subst3 dz dx dy t
    else if ('{' : Char) = '{' ∧ ('x' : Char) = 'y' ∧ ('}' : Char) = '}' then
      dy ++ subst3 dz dx dy t
    else '{' :: subst3 dz dx dy ('x' :: '}' :: t)) = dx ++ subst3 dz dx dy t
  rw [if_neg (by decide), if_pos ⟨rfl, rfl, rfl⟩]

theorem subst3_matchy (dz dx dy t : List Char) :
    subst3 dz dx dy ('{' :: 'y' :: '}' :: t) = dy ++ subst3 dz dx dy t := by
  show (if ('{' : Char) = '{' ∧ ('y' : Char) = 'z' ∧ ('}' : Char) = '}' then
      dz ++ subst3 dz dx dy t
    else if ('{' : Char) = '{' ∧ ('y' : Char) = 'x' ∧ ('}' : Char) = '}' then
      dx ++ subst3 dz dx dy t
    else if ('{' : Char) = '{' ∧ ('y' : Char) = 'y' ∧ ('}' : Char) = '}' then
      dy ++ subst3 dz dx dy t
    else '{' :: subst3 dz dx dy ('y' :: '}' :: t)) = dy ++ subst3 dz dx dy t
  rw [if_neg (by decide), if_neg (by decide), if_pos ⟨rfl, rfl, rfl⟩]

theorem subst3_head (dz dx dy : List Char) (u : Char) (s : List Char)
    (h1 : ¬ matchesAt '{' 'z' '}' (u :: s))
    (h2 : ¬ matchesAt '{' 'x' '}' (u :: s))
    (h3 : ¬ matchesAt '{' 'y' '}' (u :: s)) :
    subst3 dz dx dy (u :: s) = u :: subst3 dz dx dy s := by
  match s with
  | [] => rfl
  | [v] => rfl
  | v :: w :: t =>
    show (if u = '{' ∧ v = 'z' ∧ w = '}' then dz ++ subst3 dz dx dy t
      else if u = '{' ∧ v = 'x' ∧ w = '}' then dx ++ subst3 dz dx dy t
      else if u = '{' ∧ v = 'y' ∧ w = '}' then dy ++ subst3 dz dx dy t
      else u :: subst3 dz dx dy (v :: w :: t)) = u :: subst3 dz dx dy (v :: w :: t)
    rw [if_neg (show ¬ (u = '{' ∧ v = 'z' ∧ w = '}') from h1),
      if_neg (show ¬ (u = '{' ∧ v = 'x' ∧ w = '}') from h2),
      if_neg (show ¬ (u = '{' ∧ v = 'y' ∧ w = '}') from h3)]

theorem seq_eq_subst3 (dz dx dy : List Char)
    (hz : ∀ ch ∈ dz, ch ∈ digitChars) (hznil : dz ≠ [])
    (hx : ∀ ch ∈ dx, ch ∈ digitChars) (hxnil : dx ≠ [])
    (hy : ∀ ch ∈ dy, ch ∈ digitChars) (hynil : dy ≠ [])
    (s : List Char) :
    replace3 '{' 'y' '}' dy (replace3 '{' 'x' '}' dx (replace3 '{' 'z' '}' dz s))
      = subst3 dz dx dy s := by
  match s with
  | [] => rfl
  | [u] => rfl
  | [u, v] => rfl
  | u :: v :: w :: t =>
    have hznb : ∀ ch ∈ dz, ch ≠ '{' := fun ch hch => (digit_ne_special ch (hz ch hch)).1
    have hxnb : ∀ ch ∈ dx, ch ≠ '{' := fun ch hch => (digit_ne_special ch (hx ch hch)).1
    have hmx : ∀ ch ∈ digitChars, ch ≠ 'x' := fun ch hch => (digit_ne_special ch hch).2.2.1
    have hmy : ∀ ch ∈ digitChars, ch ≠ 'y' := fun ch hch => (digit_ne_special ch hch).2.2.2.1
    by_cases h1 : u = '{' ∧ v = 'z' ∧ w = '}'
    · obtain ⟨rfl, rfl, rfl⟩ := h1
      rw [replace3_match, replace3_append '{' 'x' '}' dx dz _ hznb,
        replace3_append '{' 'y' '}' dy dz _ hznb, subst3_matchz]
      exact congrArg (dz ++ ·)
        (seq_eq_subst3 dz dx dy hz hznil hx hxnil hy hynil t)
    · by_cases h2 : u = '{' ∧ v = 'x' ∧ w = '}'
      · obtain ⟨rfl, rfl, rfl⟩ := h2
        rw [replace3_head '{' 'z' '}' dz '{' _
            (fun hm => absurd (matchesAt_second '{' 'z' '}' '{' 'x' _ hm) (by decide)),
          replace3_head '{' 'z' '}' dz 'x' _
            (not_matchesAt_head '{' 'z' '}' 'x' _ (by decide)),
          replace3_head '{' 'z' '}' dz '}' _
            (not_matchesAt_head '{' 'z' '}' '}' _ (by decide)),
          replace3_match, replace3_append '{' 'y' '}' dy dx _ hxnb, subst3_matchx]
        exact congrArg (dx ++ ·)
          (seq_eq_subst3 dz dx dy hz hznil hx hxnil hy hynil t)
      · by_cases h3 : u = '{' ∧ v = 'y' ∧ w = '}'
        · obtain ⟨rfl, rfl, rfl⟩ := h3
          rw [replace3_head '{' 'z' '}' dz '{' _
              (fun hm => absurd (matchesAt_second '{' 'z' '}' '{' 'y' _ hm) (by decide)),
            replace3_head '{' 'z' '}' dz 'y' _
              (not_matchesAt_head '{' 'z' '}' 'y' _ (by decide)),
            replace3_head '{' 'z' '}' dz '}' _
              (not_matchesAt_head '{' 'z' '}' '}' _ (by decide)),
            replace3_head '{' 'x' '}' dx '{' _
              (fun hm => absurd (matchesAt_second '{' 'x' '}' '{' 'y' _ hm) (by decide)),
            replace3_head '{' 'x' '}' dx 'y' _
              (not_matchesAt_head '{' 'x' '}' 'y' _ (by decide)),
            replace3_head '{' 'x' '}' dx '}' _
              (not_matchesAt_head '{' 'x' '}' '}' _ (by decide)),
            replace3_match, subst3_matchy]
          exact congrArg (dy ++ ·)
            (seq_eq_subst3 dz dx dy hz hznil hx hxnil hy hynil t)
        · have hm1 : ¬ matchesAt '{' 'z' '}' (u :: v :: w :: t) := h1
          have hm2 : ¬ matchesAt '{' 'x' '}' (u :: v :: w :: t) := h2
          have hm3 : ¬ matchesAt '{' 'y' '}' (u :: v :: w :: t) := h3
          have hm2' : ¬ matchesAt '{' 'x' '}' (u :: replace3 '{' 'z' '}' dz (v :: w :: t)) :=
            not_matchesAt_replace3 'x' 'z' dz u (v :: w :: t) hz hznil hmx hm2
          have hm3' : ¬ matchesAt '{' 'y' '}' (u :: replace3 '{' 'z' '}' dz (v :: w :: t)) :=
            not_matchesAt_replace3 'y' 'z' dz u (v :: w :: t) hz hznil hmy hm3
          have hm3'' : ¬ matchesAt '{' 'y' '}'
              (u :: replace3 '{' 'x' '}' dx (replace3 '{' 'z' '}' dz (v :: w :: t))) :=
            not_matchesAt_replace3 'y' 'x' dx u _ hx hxnil hmy hm3'
          rw [replace3_head '{' 'z' '}' dz u _ hm1,
            replace3_head '{' 'x' '}' dx u _ hm2',
            replace3_head '{' 'y' '}' dy u _ hm3'',
            subst3_head dz dx dy u _ hm1 hm2 hm3]
          exact congrArg (u :: ·)
            (seq_eq_subst3 dz dx dy hz hznil hx hxnil hy hynil (v :: w :: t))
termination_by s.length
decreasing_by all_goals simp [List.length_cons] <;> omega

theorem replace3_of_not_occurs (a b c : Char) (r s : List Char)
    (h : occursPat a b c s = false) : replace3 a b c r s = s := by
  match s with
  | [] => rfl
  | [x] => rfl
  | [x, y] => rfl
  | x :: y :: z :: t =>
    rw [show occursPat a b c (x :: y :: z :: t)
        = (decide (x = a ∧ y = b ∧ z = c) || occursPat a b c (y :: z :: t)) from rfl,
      Bool.or_eq_false_iff] at h
    have hcond : ¬ (x = a ∧ y = b ∧ z = c) := by
      simpa using h.1
    show (if x = a ∧ y = b ∧ z = c then r ++ replace3 a b c r t
      else x :: replace3 a b c r (y :: z :: t)) = x :: y :: z :: t
    rw [if_neg hcond, replace3_of_not_occurs a b c r (y :: z :: t) h.2]
termination_by s.length
decreasing_by simp [List.length_cons]

/-- C2: for every tile coordinate and every URL template, `getPbfLink`
returns the template with every occurrence of the three placeholder
substrings (open brace, coordinate letter, close brace) replaced by the
decimal representations of z, x and y respectively, and changes nothing
else — i.e. the three sequential replacements of the source equal one
simultaneous substitution pass. -/
theorem getPbfLink_substitutes (coord : TileCoord) (pbfLinkTemplate : List Char) :
    getPbfLink coord pbfLinkTemplate = substPlaceholders coord pbfLinkTemplate := by
  unfold getPbfLink substPlaceholders
  exact seq_eq_subst3 (decimalChars coord.zoom) (decimalChars coord.x)
    (decimalChars coord.y)
    (decimalChars_digits coord.zoom) (decimalChars_ne_nil coord.zoom)
    (decimalChars_digits coord.x) (decimalChars_ne_nil coord.x)
    (decimalChars_digits coord.y) (decimalChars_ne_nil coord.y)
    pbfLinkTemplate

/-- C9: `StoredTile::isReadyToRender` returns true exactly when the stored
state is `Ok`; it is false for `Pending` and for every non-Ok terminal
state. -/
theorem isReadyToRender_iff_ok (st : StoredTile) :
    st.isReadyToRender = true ↔ st.state = Bach.LoadedTileState.Ok := by
  simp [StoredTile.isReadyToRender]

/-- C10: on a template containing none of the three placeholder substrings,
`getPbfLink` returns the template unchanged and signals no error: the
template is never validated to contain the placeholders. -/
theorem getPbfLink_id_of_no_placeholders (coord : TileCoord) (tmpl : List Char)
    (hz : occursPat '{' 'z' '}' tmpl = false)
    (hx : occursPat '{' 'x' '}' tmpl = false)
    (hy : occursPat '{' 'y' '}' tmpl = false) :
    getPbfLink coord tmpl = tmpl := by
  unfold getPbfLink
  rw [replace3_of_not_occurs '{' 'z' '}' (decimalChars coord.zoom) tmpl hz,
    replace3_of_not_occurs '{' 'x' '}' (decimalChars coord.x) tmpl hx,
    replace3_of_not_occurs '{' 'y' '}' (decimalChars coord.y) tmpl hy]

/-- Witness for C10 at the concrete placeholder-free template "pbf". -/
theorem getPbfLink_id_of_no_placeholders_witness :
    occursPat '{' 'z' '}' ['p', 'b', 'f'] = false ∧
    occursPat '{' 'x' '}' ['p', 'b', 'f'] = false ∧
    occursPat '{' 'y' '}' ['p', 'b', 'f'] = false ∧
    getPbfLink ⟨3, 4, 5⟩ ['p', 'b', 'f'] = ['p', 'b', 'f'] :=
  ⟨by decide, by decide, by decide,
    getPbfLink_id_of_no_placeholders ⟨3, 4, 5⟩ ['p', 'b', 'f']
      (by decide) (by decide) (by decide)⟩

/- ---------------------------------------------------------------------
The tile registry life-cycle.

The bodies of `TileLoader::requestTiles`, `queueTileLoadingJobs`,
`loadFromWeb` and the terminal-transition helpers are declared in the
TileURL header but their implementation file is not part of the sources at
hand, so the registry life-cycle below is modelled from the spec; the
`StoredTile` record itself, `newPending`, `isReadyToRender`, the overload
bodies and `getTileState` are taken from the header.
--------------------------------------------------------------------- -/

/-- An asynchronous load job dispatched for one freshly created `Pending`
entry. It captures the single `tileLoadedSignalFn` callback of the
`requestTiles` call that created the entry (callbacks are identified by a
number; `none` is the null `std::function`), plus whether its one allowed
network fetch has been issued. -/
structure Job where
  coord : TileCoord
  callback : Option Nat
  fetched : Bool
deriving DecidableEq

/-- Modelled from the spec: the whole-system state — the mutex-guarded
registry map `tileMemory` (an association list with unique keys), the
in-flight load jobs, plus two observation logs: every network fetch issued
and every listener invocation performed. -/
structure SysState where
  memory : List (TileCoord × StoredTile)
  jobs : List Job
  fetchLog : List TileCoord
  invokeLog : List (Nat × TileCoord)
deriving DecidableEq

/-- The empty initial state: no tiles resident, nothing in flight. -/
def initState : SysState := ⟨[], [], [], []⟩

/-- Registry lookup (`tileMemory.find`). -/
def lookupStored : List (TileCoord × StoredTile) → TileCoord → Option StoredTile
  | [], _ => none
  | (c', st) :: rest, c => if c = c' then some st else lookupStored rest c

/-- Replace the binding of an existing key, leaving every other binding
unchanged. -/
def setStored : List (TileCoord × StoredTile) → TileCoord → StoredTile →
    List (TileCoord × StoredTile)
  | [], _, _ => []
  | (c', st') :: rest, c, st =>
    if c = c' then (c, st) :: rest else (c', st') :: setStored rest c st

/-- Test hook `TileLoader::getTileState`: the load state of a tile, if it has been
loaded in some form. -/
def getTileState (s : SysState) (c : TileCoord) : Option Bach.LoadedTileState :=
  (lookupStored s.memory c).map (fun st => st.state)

/-- Modelled from the spec: the locked scan of a `requestTiles` call over
the requested set, collecting the already-loaded tiles that are safe to
return to rendering (`isReadyToRender`). -/
def requestTilesHits (mem : List (TileCoord × StoredTile)) :
    List TileCoord → List (TileCoord × StoredTile)
  | [] => []
  | c :: rest =>
    match lookupStored mem c with
    | some st =>
      if st.isReadyToRender then (c, st) :: requestTilesHits mem rest
      else requestTilesHits mem rest
    | none => requestTilesHits mem rest

/-- Modelled from the spec: the miss-handling half of `requestTiles` under
the registry lock. Every requested coordinate that is absent from the
registry gets a fresh `Pending` entry and one dispatched load job capturing
the call's single callback; a coordinate whose entry already exists — be it
`Pending` or terminal — is left untouched and the caller's callback is
dropped (the source stores only the one callback captured by the job it
dispatches; `StoredTile` has no waiter list). -/
def processMisses (cb : Option Nat) :
    List TileCoord → List (TileCoord × StoredTile) × List Job →
    List (TileCoord × StoredTile) × List Job
  | [], mj => mj
  | c :: rest, (mem, jobs) =>
    if lookupStored mem c = none then
      processMisses cb rest
        ((c, StoredTile.newPending) :: mem, { coord := c, callback := cb, fetched := false } :: jobs)
    else processMisses cb rest (mem, jobs)

/-- Modelled from the spec: `TileLoader::requestTiles` (full three-argument
form). Returns the hit set and the successor system state. Missing tiles
are dispatched only when `loadMissingTiles` is set and the callback is
non-null (a null callback means the missing tiles will not be loaded). -/
def requestTilesFull (s : SysState) (requestInput : List TileCoord)
    (cb : Option Nat) (loadMissingTiles : Bool) :
    List (TileCoord × StoredTile) × SysState :=
  if loadMissingTiles && cb.isSome then
    let mj := processMisses cb requestInput (s.memory, s.jobs)
    (requestTilesHits s.memory requestInput, { s with memory := mj.1, jobs := mj.2 })
  else (requestTilesHits s.memory requestInput, s)

/-- The two-argument overload `requestTiles(requestInput, loadMissingTiles)`
from the header: forwards a null callback. -/
def requestTilesNoCallback (s : SysState) (requestInput : List TileCoord)
    (loadMissingTiles : Bool) : List (TileCoord × StoredTile) × SysState :=
  requestTilesFull s requestInput none loadMissingTiles

/-- The defaulted overload `requestTiles(requestInput, tileLoadedSignalFn)`
from the header: `loadMissingTiles` is the null-check (`static_cast<bool>`)
of the callback. -/
def requestTilesDefaulted (s : SysState) (requestInput : List TileCoord)
    (cb : Option Nat) : List (TileCoord × StoredTile) × SysState :=
  requestTilesFull s requestInput cb cb.isSome

/-- Mark the (unique) not-yet-fetched job for a coordinate as having issued
its network fetch; `none` when no such job exists. -/
def markFetch : List Job → TileCoord → Option (List Job)
  | [], _ => none
  | j :: rest, c =>
    if j.coord = c ∧ j.fetched = false then some ({ j with fetched := true } :: rest)
    else
      match markFetch rest c with
      | some rest' => some (j :: rest')
      | none => none

/-- Whether some in-flight job exists for the coordinate. -/
def hasJob : List Job → TileCoord → Bool
  | [], _ => false
  | j :: rest, c => decide (j.coord = c) || hasJob rest c

/-- The callback of the first in-flight job for the coordinate. -/
def jobCallback : List Job → TileCoord → Option Nat
  | [], _ => none
  | j :: rest, c => if j.coord = c then j.callback else jobCallback rest c

/-- Remove the (unique) in-flight job for the coordinate. -/
def removeJob : List Job → TileCoord → List Job
  | [], _ => []
  | j :: rest, c => if j.coord = c then rest else j :: removeJob rest c

/-- One interleaving step of the system: a `requestTiles` call (atomic
under the registry lock), a network fetch issued by an in-flight job, or a
job finishing with its terminal transition — `Ok` installs the parsed
payload and invokes the job's captured callback, anything else drops the
payload and notifies nobody. -/
inductive Event where
  | request (requestInput : List TileCoord) (cb : Option Nat) (loadMissingTiles : Bool)
  | fetch (c : TileCoord)
  | completeOk (c : TileCoord) (payload : VectorTile)
  | completeFail (c : TileCoord) (fs : Bach.LoadedTileState)

/-- Modelled from the spec: the effect of one event on the system state;
`none` when the event is not enabled in this state. -/
def applyEvent (s : SysState) : Event → Option SysState
  | Event.request requestInput cb loadMissingTiles =>
    some (requestTilesFull s requestInput cb loadMissingTiles).2
  | Event.fetch c =>
    match markFetch s.jobs c with
    | some jobs' => some { s with jobs := jobs', fetchLog := c :: s.fetchLog }
    | none => none
  | Event.completeOk c payload =>
    match lookupStored s.memory c with
    | some st =>
      if st.state = Bach.LoadedTileState.Pending ∧ hasJob s.jobs c = true then
        some { s with
          memory := setStored s.memory c
            { state := Bach.LoadedTileState.Ok, tile := some payload },
          jobs := removeJob s.jobs c,
          invokeLog :=
            (match jobCallback s.jobs c with
              | some listener => [(listener, c)]
              | none => []) ++ s.invokeLog }
      else none
    | none => none
  | Event.completeFail c fs =>
    if fs = Bach.LoadedTileState.ParsingFailed ∨ fs = Bach.LoadedTileState.Cancelled
        ∨ fs = Bach.LoadedTileState.UnknownError then
      match lookupStored s.memory c with
      | some st =>
        if st.state = Bach.LoadedTileState.Pending ∧ hasJob s.jobs c = true then
          some { s with
            memory := setStored s.memory c { state := fs, tile := none },
            jobs := removeJob s.jobs c }
        else none
      | none => none
    else none

/-- Run a whole interleaving of events from a starting state. -/
def run (s : SysState) : List Event → Option SysState
  | [] => some s
  | e :: es =>
    match applyEvent s e with
    | some s' => run s' es
    | none => none

theorem lookup_setStored_ne (mem : List (TileCoord × StoredTile)) (c c' : TileCoord)
    (st : StoredTile) (h : c' ≠ c) :
    lookupStored (setStored mem c st) c' = lookupStored mem c' := by
  induction mem with
  | nil => rfl
  | cons p rest ih =>
    obtain ⟨c0, st0⟩ := p
    by_cases hc : c = c0
    · subst hc
      rw [setStored, if_pos rfl, lookupStored, lookupStored, if_neg h, if_neg h]
    · rw [setStored, if_neg hc, lookupStored, lookupStored, ih]

theorem lookup_setStored_some (mem : List (TileCoord × StoredTile)) (c : TileCoord)
    (st st0 : StoredTile) (h : lookupStored mem c = some st0) :
    lookupStored (setStored mem c st) c = some st := by
  induction mem with
  | nil => simp [lookupStored] at h
  | cons p rest ih =>
    obtain ⟨c0, st0'⟩ := p
    by_cases hc : c = c0
    · subst hc
      rw [setStored, if_pos rfl, lookupStored, if_pos rfl]
    · rw [lookupStored, if_neg hc] at h
      rw [setStored, if_neg hc, lookupStored, if_neg hc]
      exact ih h

theorem lookup_setStored_none (mem : List (TileCoord × StoredTile)) (c c' : TileCoord)
    (st : StoredTile) (h : lookupStored (setStored mem c st) c' = none) :
    lookupStored mem c' = none := by
  induction mem with
  | nil => exact h
  | cons p rest ih =>
    obtain ⟨c0, st0⟩ := p
    by_cases hc : c = c0
    · subst hc
      rw [setStored, if_pos rfl, lookupStored] at h
      rw [lookupStored]
      by_cases hcc : c' = c
      · rw [if_pos hcc] at h
        exact absurd h (by simp)
      · rw [if_neg hcc] at h
        rw [if_neg hcc]
        exact h
    · rw [setStored, if_neg hc, lookupStored] at h
      rw [lookupStored]
      by_cases hcc : c' = c0
      · rw [if_pos hcc] at h
        exact absurd h (by simp)
      · rw [if_neg hcc] at h
        rw [if_neg hcc]
        exact ih h

theorem processMisses_cons_absent (cb : Option Nat) (c : TileCoord) (rest : List TileCoord)
    (mem : List (TileCoord × StoredTile)) (jobs : List Job)
    (hl : lookupStored mem c = none) :
    processMisses cb (c :: rest) (mem, jobs)
      = processMisses cb rest
          ((c, StoredTile.newPending) :: mem,
            { coord := c, callback := cb, fetched := false } :: jobs) := by
  show (if lookupStored mem c = none then
      processMisses cb rest
        ((c, StoredTile.newPending) :: mem,
          { coord := c, callback := cb, fetched := false } :: jobs)
    else processMisses cb rest (mem, jobs)) = _
  rw [if_pos hl]

theorem processMisses_cons_present (cb : Option Nat) (c : TileCoord) (rest : List TileCoord)
    (mem : List (TileCoord × StoredTile)) (jobs : List Job)
    (hl : lookupStored mem c ≠ none) :
    processMisses cb (c :: rest) (mem, jobs) = processMisses cb rest (mem, jobs) := by
  show (if lookupStored mem c = none then
      processMisses cb rest
        ((c, StoredTile.newPending) :: mem,
          { coord := c, callback := cb, fetched := false } :: jobs)
    else processMisses cb rest (mem, jobs)) = _
  rw [if_neg hl]

theorem processMisses_lookup_some (cb : Option Nat) (ws : List TileCoord)
    (mem : List (TileCoord × StoredTile)) (jobs : List Job) (c : TileCoord)
    (st : StoredTile) (h : lookupStored mem c = some st) :
    lookupStored (processMisses cb ws (mem, jobs)).1 c = some st := by
  induction ws generalizing mem jobs with
  | nil => exact h
  | cons c0 rest ih =>
    by_cases hl : lookupStored mem c0 = none
    · rw [processMisses_cons_absent cb c0 rest mem jobs hl]
      apply ih
      rw [lookupStored]
      by_cases hcc : c = c0
      · subst hcc
        rw [h] at hl
        exact absurd hl (by simp)
      · rw [if_neg hcc]
        exact h
    · rw [processMisses_cons_present cb c0 rest mem jobs hl]
      exact ih _ _ h

theorem getTileState_eq_some (s : SysState) (c : TileCoord) (st : Bach.LoadedTileState) :
    getTileState s c = some st
      ↔ ∃ st0, lookupStored s.memory c = some st0 ∧ st0.state = st := by
  simp [getTileState, Option.map_eq_some']

theorem applyEvent_preserves_terminal (s s' : SysState) (e : Event) (c : TileCoord)
    (st : Bach.LoadedTileState) (he : applyEvent s e = some s')
    (hst : getTileState s c = some st) (hterm : st ≠ Bach.LoadedTileState.Pending) :
    getTileState s' c = some st := by
  obtain ⟨st0, hlk, hstate⟩ := (getTileState_eq_some s c st).mp hst
  cases e with
  | request ws cb lm =>
    simp only [applyEvent] at he
    injection he with he
    subst he
    rw [getTileState_eq_some]
    refine ⟨st0, ?_, hstate⟩
    rw [requestTilesFull]
    by_cases hb : (lm && cb.isSome) = true
    · rw [if_pos hb]
      exact processMisses_lookup_some cb ws s.memory s.jobs c st0 hlk
    · rw [if_neg hb]
      exact hlk
  | fetch c0 =>
    simp only [applyEvent] at he
    cases hmf : markFetch s.jobs c0 with
    | none =>
      rw [hmf] at he
      exact absurd he (by simp)
    | some js =>
      rw [hmf] at he
      injection he with he
      subst he
      rw [getTileState_eq_some]
      exact ⟨st0, hlk, hstate⟩
  | completeOk c0 payload =>
    simp only [applyEvent] at he
    split at he
    · rename_i stc hlk0
      split at he
      · rename_i hcond
        injection he with he
        subst he
        rw [getTileState_eq_some]
        refine ⟨st0, ?_, hstate⟩
        have hcc : c ≠ c0 := by
          intro hcc
          subst hcc
          rw [hlk] at hlk0
          injection hlk0 with hlk0
          subst hlk0
          exact hterm (hstate ▸ hcond.1)
        rw [lookup_setStored_ne s.memory c0 c _ hcc]
        exact hlk
      · exact absurd he (by simp)
    · exact absurd he (by simp)
  | completeFail c0 fs =>
    simp only [applyEvent] at he
    split at he
    · split at he
      · rename_i stc hlk0
        split at he
        · rename_i hcond
          injection he with he
          subst he
          rw [getTileState_eq_some]
          refine ⟨st0, ?_, hstate⟩
          have hcc : c ≠ c0 := by
            intro hcc
            subst hcc
            rw [hlk] at hlk0
            injection hlk0 with hlk0
            subst hlk0
            exact hterm (hstate ▸ hcond.1)
          rw [lookup_setStored_ne s.memory c0 c _ hcc]
          exact hlk
        · exact absurd he (by simp)
      · exact absurd he (by simp)
    · exact absurd he (by simp)

/-- C5: terminal states are sticky. Once `getTileState` observes any
non-`Pending` (terminal) state for a coordinate, every run of further
events leaves that observation unchanged: the state never changes again. -/
theorem terminal_state_sticky (s s' : SysState) (es : List Event) (c : TileCoord)
    (st : Bach.LoadedTileState) (hrun : run s es = some s')
    (hst : getTileState s c = some st) (hterm : st ≠ Bach.LoadedTileState.Pending) :
    getTileState s' c = some st := by
  induction es generalizing s with
  | nil =>
    rw [run] at hrun
    injection hrun with hrun
    subst hrun
    exact hst
  | cons e rest ih =>
    rw [run] at hrun
    cases hae : applyEvent s e with
    | none =>
      rw [hae] at hrun
      exact absurd hrun (by simp)
    | some s1 =>
      rw [hae] at hrun
      exact ih s1 hrun (applyEvent_preserves_terminal s s1 e c st hae hst hterm)

/-- Witness for C5: an `Ok` entry survives a further `requestTiles` call
for the same coordinate. -/
theorem terminal_state_sticky_witness :
    getTileState
      ⟨[(⟨0, 0, 0⟩, ⟨Bach.LoadedTileState.Ok, some ⟨7⟩⟩)], [], [], []⟩ ⟨0, 0, 0⟩
      = some Bach.LoadedTileState.Ok :=
  terminal_state_sticky
    ⟨[(⟨0, 0, 0⟩, ⟨Bach.LoadedTileState.Ok, some ⟨7⟩⟩)], [], [], []⟩
    ⟨[(⟨0, 0, 0⟩, ⟨Bach.LoadedTileState.Ok, some ⟨7⟩⟩)], [], [], []⟩
    [Event.request [⟨0, 0, 0⟩] (some 1) true] ⟨0, 0, 0⟩
    Bach.LoadedTileState.Ok (by decide) (by decide) (by decide)

theorem requestTilesHits_cons_none (mem : List (TileCoord × StoredTile)) (c : TileCoord)
    (rest : List TileCoord) (hl : lookupStored mem c = none) :
    requestTilesHits mem (c :: rest) = requestTilesHits mem rest := by
  rw [requestTilesHits, hl]

theorem requestTilesHits_cons_ready (mem : List (TileCoord × StoredTile)) (c : TileCoord)
    (rest : List TileCoord) (st : StoredTile) (hl : lookupStored mem c = some st)
    (hr : st.isReadyToRender = true) :
    requestTilesHits mem (c :: rest) = (c, st) :: requestTilesHits mem rest := by
  rw [requestTilesHits, hl]
  show (if st.isReadyToRender = true then (c, st) :: requestTilesHits mem rest
    else requestTilesHits mem rest) = _
  rw [if_pos hr]

theorem requestTilesHits_cons_not_ready (mem : List (TileCoord × StoredTile))
    (c : TileCoord) (rest : List TileCoord) (st : StoredTile)
    (hl : lookupStored mem c = some st) (hr : st.isReadyToRender = false) :
    requestTilesHits mem (c :: rest) = requestTilesHits mem rest := by
  rw [requestTilesHits, hl]
  show (if st.isReadyToRender = true then (c, st) :: requestTilesHits mem rest
    else requestTilesHits mem rest) = _
  rw [if_neg (by simp [hr])]

theorem requestTilesHits_mem (mem : List (TileCoord × StoredTile)) (ws : List TileCoord)
    (c : TileCoord) (st : StoredTile) (h : (c, st) ∈ requestTilesHits mem ws) :
    lookupStored mem c = some st ∧ st.state = Bach.LoadedTileState.Ok := by
  induction ws with
  | nil => simp [requestTilesHits] at h
  | cons c0 rest ih =>
    cases hl : lookupStored mem c0 with
    | none =>
      rw [requestTilesHits_cons_none mem c0 rest hl] at h
      exact ih h
    | some st0 =>
      cases hr : st0.isReadyToRender with
      | false =>
        rw [requestTilesHits_cons_not_ready mem c0 rest st0 hl hr] at h
        exact ih h
      | true =>
        rw [requestTilesHits_cons_ready mem c0 rest st0 hl hr] at h
        rcases List.mem_cons.mp h with heq | hmem
        · have hc : c = c0 := congrArg Prod.fst heq
          have hs : st = st0 := congrArg Prod.snd heq
          subst hc
          subst hs
          refine ⟨hl, ?_⟩
          simpa [StoredTile.isReadyToRender] using hr
        · exact ih hmem

theorem requestTilesFull_fst (s : SysState) (ws : List TileCoord) (cb : Option Nat)
    (lm : Bool) :
    (requestTilesFull s ws cb lm).1 = requestTilesHits s.memory ws := by
  rw [requestTilesFull]
  by_cases hb : (lm && cb.isSome) = true
  · rw [if_pos hb]
  · rw [if_neg hb]

/-- C3: every tile contained in the result of a `requestTiles` call has
state `Ok` — both in the registry the locked scan read and in the registry
at the moment of return — and the returned set is a subset of the tiles
resident in memory (the lookup succeeds). -/
theorem requestTiles_result_ok (s : SysState) (ws : List TileCoord) (cb : Option Nat)
    (lm : Bool) (c : TileCoord) (st : StoredTile)
    (h : (c, st) ∈ (requestTilesFull s ws cb lm).1) :
    lookupStored s.memory c = some st ∧ st.state = Bach.LoadedTileState.Ok ∧
      getTileState (requestTilesFull s ws cb lm).2 c = some Bach.LoadedTileState.Ok := by
  rw [requestTilesFull_fst] at h
  obtain ⟨hlk, hok⟩ := requestTilesHits_mem s.memory ws c st h
  refine ⟨hlk, hok, ?_⟩
  rw [getTileState_eq_some]
  refine ⟨st, ?_, hok⟩
  rw [requestTilesFull]
  by_cases hb : (lm && cb.isSome) = true
  · rw [if_pos hb]
    exact processMisses_lookup_some cb ws s.memory s.jobs c st hlk
  · rw [if_neg hb]
    exact hlk

/-- Witness for C3: a resident `Ok` tile is returned by a request and is
`Ok` at the moment of return. -/
theorem requestTiles_result_ok_witness :
    lookupStored [(⟨1, 0, 0⟩, ⟨Bach.LoadedTileState.Ok, some ⟨3⟩⟩)] ⟨1, 0, 0⟩
        = some ⟨Bach.LoadedTileState.Ok, some ⟨3⟩⟩ ∧
      (⟨Bach.LoadedTileState.Ok, some ⟨3⟩⟩ : StoredTile).state = Bach.LoadedTileState.Ok ∧
      getTileState
        (requestTilesFull ⟨[(⟨1, 0, 0⟩, ⟨Bach.LoadedTileState.Ok, some ⟨3⟩⟩)], [], [], []⟩
          [⟨1, 0, 0⟩] (some 1) true).2 ⟨1, 0, 0⟩ = some Bach.LoadedTileState.Ok :=
  requestTiles_result_ok
    ⟨[(⟨1, 0, 0⟩, ⟨Bach.LoadedTileState.Ok, some ⟨3⟩⟩)], [], [], []⟩
    [⟨1, 0, 0⟩] (some 1) true ⟨1, 0, 0⟩ ⟨Bach.LoadedTileState.Ok, some ⟨3⟩⟩
    (by decide)

/-- C7: the two shorthand overloads of `requestTiles` from the header equal
the full three-argument form: the two-argument boolean form forwards a null
callback, and the defaulted form passes `loadMissingTiles` equal to the
null-check of the callback. -/
theorem requestTiles_overloads_agree (s : SysState) (ws : List TileCoord)
    (cb : Option Nat) (lm : Bool) :
    requestTilesNoCallback s ws lm = requestTilesFull s ws none lm ∧
      requestTilesDefaulted s ws cb = requestTilesFull s ws cb cb.isSome :=
  ⟨rfl, rfl⟩

theorem processMisses_lookup_cases (cb : Option Nat) (ws : List TileCoord)
    (mem : List (TileCoord × StoredTile)) (jobs : List Job) (c : TileCoord)
    (st : StoredTile) (h : lookupStored (processMisses cb ws (mem, jobs)).1 c = some st) :
    st = StoredTile.newPending ∨ lookupStored mem c = some st := by
  induction ws generalizing mem jobs with
  | nil => exact Or.inr h
  | cons c0 rest ih =>
    by_cases hl : lookupStored mem c0 = none
    · rw [processMisses_cons_absent cb c0 rest mem jobs hl] at h
      rcases ih _ _ h with hp | hold
      · exact Or.inl hp
      · rw [lookupStored] at hold
        by_cases hcc : c = c0
        · rw [if_pos hcc] at hold
          injection hold with hold
          exact Or.inl hold.symm
        · rw [if_neg hcc] at hold
          exact Or.inr hold
    · rw [processMisses_cons_present cb c0 rest mem jobs hl] at h
      exact ih _ _ h

theorem lookup_setStored_self (mem : List (TileCoord × StoredTile)) (c : TileCoord)
    (st st' : StoredTile) (h : lookupStored (setStored mem c st) c = some st') :
    st' = st ∨ lookupStored mem c = some st' := by
  induction mem with
  | nil => exact Or.inr h
  | cons p rest ih =>
    obtain ⟨c0, st0⟩ := p
    by_cases hc : c = c0
    · subst hc
      rw [setStored, if_pos rfl, lookupStored, if_pos rfl] at h
      injection h with h
      exact Or.inl h.symm
    · rw [setStored, if_neg hc, lookupStored, if_neg hc] at h
      rw [lookupStored, if_neg hc]
      exact ih h

/-- The registry payload invariant: an entry's state is `Ok` exactly when
its parsed-tile payload is present. -/
def tileInv (mem : List (TileCoord × StoredTile)) : Prop :=
  ∀ c st, lookupStored mem c = some st →
    (st.state = Bach.LoadedTileState.Ok ↔ st.tile.isSome = true)

theorem applyEvent_tileInv (s s' : SysState) (e : Event) (hinv : tileInv s.memory)
    (he : applyEvent s e = some s') : tileInv s'.memory := by
  cases e with
  | request ws cb lm =>
    simp only [applyEvent] at he
    injection he with he
    subst he
    intro c st hlk
    rw [requestTilesFull] at hlk
    by_cases hb : (lm && cb.isSome) = true
    · rw [if_pos hb] at hlk
      rcases processMisses_lookup_cases cb ws s.memory s.jobs c st hlk with hp | hold
      · subst hp
        decide
      · exact hinv c st hold
    · rw [if_neg hb] at hlk
      exact hinv c st hlk
  | fetch c0 =>
    simp only [applyEvent] at he
    cases hmf : markFetch s.jobs c0 with
    | none =>
      rw [hmf] at he
      exact absurd he (by simp)
    | some js =>
      rw [hmf] at he
      injection he with he
      subst he
      exact hinv
  | completeOk c0 payload =>
    simp only [applyEvent] at he
    split at he
    · rename_i stc hlk0
      split at he
      · injection he with he
        subst he
        intro c st hlk
        by_cases hcc : c = c0
        · subst hcc
          rcases lookup_setStored_self s.memory c _ st hlk with hp | hold
          · subst hp
            simp
          · exact hinv c st hold
        · rw [lookup_setStored_ne s.memory c0 c _ hcc] at hlk
          exact hinv c st hlk
      · exact absurd he (by simp)
    · exact absurd he (by simp)
  | completeFail c0 fs =>
    simp only [applyEvent] at he
    split at he
    · rename_i hfs
      split at he
      · rename_i stc hlk0
        split at he
        · injection he with he
          subst he
          intro c st hlk
          by_cases hcc : c = c0
          · subst hcc
            rcases lookup_setStored_self s.memory c _ st hlk with hp | hold
            · subst hp
              rcases hfs with rfl | rfl | rfl <;> decide
            · exact hinv c st hold
          · rw [lookup_setStored_ne s.memory c0 c _ hcc] at hlk
            exact hinv c st hlk
        · exact absurd he (by simp)
      · exact absurd he (by simp)
    · exact absurd he (by simp)

theorem run_tileInv (es : List Event) (s s' : SysState) (hinv : tileInv s.memory)
    (hrun : run s es = some s') : tileInv s'.memory := by
  induction es generalizing s with
  | nil =>
    rw [run] at hrun
    injection hrun with h
    subst h
    exact hinv
  | cons e rest ih =>
    rw [run] at hrun
    cases hae : applyEvent s e with
    | none =>
      rw [hae] at hrun
      exact absurd hrun (by simp)
    | some s1 =>
      rw [hae] at hrun
      exact ih s1 (applyEvent_tileInv s s1 e hinv hae) hrun

/-- C4: in every state reachable from the empty registry, an entry's state
is `Ok` if and only if its parsed-tile payload is present; every other
state carries no payload. -/
theorem registry_ok_iff_payload (es : List Event) (s' : SysState)
    (hrun : run initState es = some s') (c : TileCoord) (st : StoredTile)
    (hlk : lookupStored s'.memory c = some st) :
    st.state = Bach.LoadedTileState.Ok ↔ st.tile.isSome = true := by
  have hinit : tileInv initState.memory := by
    intro c0 st0 h0
    simp [initState, lookupStored] at h0
  exact run_tileInv es initState s' hinit hrun c st hlk

/-- Witness for C4: after one request creates a `Pending` entry, that entry
satisfies the payload invariant. -/
theorem registry_ok_iff_payload_witness :
    StoredTile.newPending.state = Bach.LoadedTileState.Ok
      ↔ StoredTile.newPending.tile.isSome = true :=
  registry_ok_iff_payload [Event.request [⟨1, 2, 3⟩] (some 1) true]
    ⟨[(⟨1, 2, 3⟩, StoredTile.newPending)],
      [{ coord := ⟨1, 2, 3⟩, callback := some 1, fetched := false }], [], []⟩
    (by decide) ⟨1, 2, 3⟩ StoredTile.newPending (by decide)

/-- Number of occurrences of a coordinate in a log. -/
def countC (c : TileCoord) : List TileCoord → Nat
  | [] => 0
  | x :: rest => (if x = c then 1 else 0) + countC c rest

/-- Number of in-flight jobs for a coordinate. -/
def jobCount (c : TileCoord) : List Job → Nat
  | [] => 0
  | j :: rest => (if j.coord = c then 1 else 0) + jobCount c rest

/-- Number of in-flight jobs for a coordinate that may still issue their
network fetch. -/
def unfetchedCount (c : TileCoord) : List Job → Nat
  | [] => 0
  | j :: rest =>
    (if j.coord = c ∧ j.fetched = false then 1 else 0) + unfetchedCount c rest

theorem unfetched_le_jobCount (c : TileCoord) (js : List Job) :
    unfetchedCount c js ≤ jobCount c js := by
  induction js with
  | nil => exact Nat.le_refl 0
  | cons j rest ih =>
    rw [unfetchedCount, jobCount]
    by_cases hc : j.coord = c
    · by_cases hf : j.fetched = false
      · rw [if_pos ⟨hc, hf⟩, if_pos hc]
        omega
      · rw [if_neg (fun hh => hf hh.2), if_pos hc]
        omega
    · rw [if_neg (fun hh => hc hh.1), if_neg hc]
      omega

theorem markFetch_unfetched_self (js : List Job) (c : TileCoord) (js' : List Job)
    (h : markFetch js c = some js') :
    unfetchedCount c js = unfetchedCount c js' + 1 := by
  induction js generalizing js' with
  | nil => simp [markFetch] at h
  | cons j rest ih =>
    rw [markFetch] at h
    by_cases hc : j.coord = c ∧ j.fetched = false
    · rw [if_pos hc] at h
      injection h with h
      subst h
      rw [unfetchedCount, unfetchedCount, if_pos hc,
        if_neg (fun hh => Bool.noConfusion hh.2)]
      omega
    · rw [if_neg hc] at h
      cases hmf : markFetch rest c with
      | none =>
        rw [hmf] at h
        exact absurd h (by simp)
      | some rest' =>
        rw [hmf] at h
        injection h with h
        subst h
        rw [unfetchedCount, unfetchedCount, ih rest' hmf]
        omega

theorem markFetch_unfetched_ne (js : List Job) (c c' : TileCoord) (js' : List Job)
    (hne : c' ≠ c) (h : markFetch js c = some js') :
    unfetchedCount c' js' = unfetchedCount c' js := by
  induction js generalizing js' with
  | nil => simp [markFetch] at h
  | cons j rest ih =>
    rw [markFetch] at h
    by_cases hc : j.coord = c ∧ j.fetched = false
    · rw [if_pos hc] at h
      injection h with h
      subst h
      rw [unfetchedCount, unfetchedCount,
        if_neg (fun hh => Bool.noConfusion hh.2),
        if_neg (fun hh => hne (hh.1.symm.trans hc.1))]
    · rw [if_neg hc] at h
      cases hmf : markFetch rest c with
      | none =>
        rw [hmf] at h
        exact absurd h (by simp)
      | some rest' =>
        rw [hmf] at h
        injection h with h
        subst h
        rw [unfetchedCount, unfetchedCount, ih rest' hmf]

theorem markFetch_jobCount (js : List Job) (c : TileCoord) (js' : List Job)
    (c' : TileCoord) (h : markFetch js c = some js') :
    jobCount c' js' = jobCount c' js := by
  induction js generalizing js' with
  | nil => simp [markFetch] at h
  | cons j rest ih =>
    rw [markFetch] at h
    by_cases hc : j.coord = c ∧ j.fetched = false
    · rw [if_pos hc] at h
      injection h with h
      subst h
      rfl
    · rw [if_neg hc] at h
      cases hmf : markFetch rest c with
      | none =>
        rw [hmf] at h
        exact absurd h (by simp)
      | some rest' =>
        rw [hmf] at h
        injection h with h
        subst h
        rw [jobCount, jobCount, ih rest' hmf]

theorem markFetch_some_jobCount_pos (js : List Job) (c : TileCoord) (js' : List Job)
    (h : markFetch js c = some js') : 1 ≤ jobCount c js := by
  induction js generalizing js' with
  | nil => simp [markFetch] at h
  | cons j rest ih =>
    rw [markFetch] at h
    by_cases hc : j.coord = c ∧ j.fetched = false
    · rw [jobCount, if_pos hc.1]
      omega
    · rw [if_neg hc] at h
      cases hmf : markFetch rest c with
      | none =>
        rw [hmf] at h
        exact absurd h (by simp)
      | some rest' =>
        have := ih rest' hmf
        rw [jobCount]
        omega

theorem removeJob_unfetched_le (js : List Job) (c c' : TileCoord) :
    unfetchedCount c' (removeJob js c) ≤ unfetchedCount c' js := by
  induction js with
  | nil => exact Nat.le_refl 0
  | cons j rest ih =>
    rw [removeJob]
    by_cases hc : j.coord = c
    · rw [if_pos hc, unfetchedCount]
      exact Nat.le_add_left _ _
    · rw [if_neg hc, unfetchedCount, unfetchedCount]
      omega

theorem removeJob_jobCount_le (js : List Job) (c c' : TileCoord) :
    jobCount c' (removeJob js c) ≤ jobCount c' js := by
  induction js with
  | nil => exact Nat.le_refl 0
  | cons j rest ih =>
    rw [removeJob]
    by_cases hc : j.coord = c
    · rw [if_pos hc, jobCount]
      exact Nat.le_add_left _ _
    · rw [if_neg hc, jobCount, jobCount]
      omega

/-- The single-flight invariant: per coordinate, an absent registry entry
means no job and no fetch ever happened, and the fetches already issued
plus the fetches still possible never exceed one. -/
def fetchInv (s : SysState) : Prop :=
  ∀ c, (lookupStored s.memory c = none →
      jobCount c s.jobs = 0 ∧ countC c s.fetchLog = 0)
    ∧ countC c s.fetchLog + unfetchedCount c s.jobs ≤ 1

theorem processMisses_fetchInv (cb : Option Nat) (ws : List TileCoord)
    (mem : List (TileCoord × StoredTile)) (jobs : List Job) (flog : List TileCoord)
    (hinv : ∀ c, (lookupStored mem c = none → jobCount c jobs = 0 ∧ countC c flog = 0)
      ∧ countC c flog + unfetchedCount c jobs ≤ 1) :
    ∀ c, (lookupStored (processMisses cb ws (mem, jobs)).1 c = none →
        jobCount c (processMisses cb ws (mem, jobs)).2 = 0 ∧ countC c flog = 0)
      ∧ countC c flog + unfetchedCount c (processMisses cb ws (mem, jobs)).2 ≤ 1 := by
  induction ws generalizing mem jobs with
  | nil => exact hinv
  | cons c0 rest ih =>
    by_cases hl : lookupStored mem c0 = none
    · rw [processMisses_cons_absent cb c0 rest mem jobs hl]
      apply ih
      intro c
      constructor
      · intro hlk
        rw [lookupStored] at hlk
        by_cases hcc : c = c0
        · rw [if_pos hcc] at hlk
          exact absurd hlk (by simp)
        · rw [if_neg hcc] at hlk
          obtain ⟨hj, hf⟩ := (hinv c).1 hlk
          refine ⟨?_, hf⟩
          rw [jobCount, if_neg (fun hh => hcc hh.symm)]
          omega
      · by_cases hcc : c = c0
        · obtain ⟨hj, hf⟩ := (hinv c).1 (hcc ▸ hl)
          have hu : unfetchedCount c jobs = 0 :=
            Nat.le_antisymm
              (le_trans (unfetched_le_jobCount c jobs) (le_of_eq hj)) (Nat.zero_le _)
          rw [unfetchedCount, if_pos ⟨hcc.symm, rfl⟩]
          omega
        · rw [unfetchedCount, if_neg (fun hh => hcc hh.1.symm)]
          have := (hinv c).2
          omega
    · rw [processMisses_cons_present cb c0 rest mem jobs hl]
      exact ih _ _ hinv

theorem applyEvent_fetchInv (s s' : SysState) (e : Event) (hinv : fetchInv s)
    (he : applyEvent s e = some s') : fetchInv s' := by
  cases e with
  | request ws cb lm =>
    simp only [applyEvent] at he
    injection he with he
    subst he
    rw [requestTilesFull]
    by_cases hb : (lm && cb.isSome) = true
    · rw [if_pos hb]
      exact processMisses_fetchInv cb ws s.memory s.jobs s.fetchLog hinv
    · rw [if_neg hb]
      exact hinv
  | fetch c0 =>
    simp only [applyEvent] at he
    cases hmf : markFetch s.jobs c0 with
    | none =>
      rw [hmf] at he
      exact absurd he (by simp)
    | some js =>
      rw [hmf] at he
      injection he with he
      subst he
      intro c
      dsimp only
      constructor
      · intro hlk
        obtain ⟨hj, hf⟩ := (hinv c).1 hlk
        constructor
        · rw [markFetch_jobCount s.jobs c0 js c hmf]
          exact hj
        · rw [countC]
          by_cases hcc : c0 = c
          · exfalso
            have hpos := markFetch_some_jobCount_pos s.jobs c0 js hmf
            rw [hcc] at hpos
            omega
          · rw [if_neg hcc]
            omega
      · rw [countC]
        by_cases hcc : c0 = c
        · subst hcc
          have h1 := markFetch_unfetched_self s.jobs c0 js hmf
          have h2 := (hinv c0).2
          rw [if_pos rfl]
          omega
        · have h1 := markFetch_unfetched_ne s.jobs c0 c js (fun hh => hcc hh.symm) hmf
          have h2 := (hinv c).2
          rw [if_neg hcc, h1]
          omega
  | completeOk c0 payload =>
    simp only [applyEvent] at he
    split at he
    · rename_i stc hlk0
      split at he
      · injection he with he
        subst he
        intro c
        dsimp only
        constructor
        · intro hlk
          obtain ⟨hj, hf⟩ := (hinv c).1 (lookup_setStored_none s.memory c0 c _ hlk)
          refine ⟨?_, hf⟩
          have := removeJob_jobCount_le s.jobs c0 c
          omega
        · have h1 := removeJob_unfetched_le s.jobs c0 c
          have h2 := (hinv c).2
          omega
      · exact absurd he (by simp)
    · exact absurd he (by simp)
  | completeFail c0 fs =>
    simp only [applyEvent] at he
    split at he
    · split at he
      · rename_i stc hlk0
        split at he
        · injection he with he
          subst he
          intro c
          dsimp only
          constructor
          · intro hlk
            obtain ⟨hj, hf⟩ := (hinv c).1 (lookup_setStored_none s.memory c0 c _ hlk)
            refine ⟨?_, hf⟩
            have := removeJob_jobCount_le s.jobs c0 c
            omega
          · have h1 := removeJob_unfetched_le s.jobs c0 c
            have h2 := (hinv c).2
            omega
        · exact absurd he (by simp)
      · exact absurd he (by simp)
    · exact absurd he (by simp)

theorem run_fetchInv (es : List Event) (s s' : SysState) (hinv : fetchInv s)
    (hrun : run s es = some s') : fetchInv s' := by
  induction es generalizing s with
  | nil =>
    rw [run] at hrun
    injection hrun with h
    subst h
    exact hinv
  | cons e rest ih =>
    rw [run] at hrun
    cases hae : applyEvent s e with
    | none =>
      rw [hae] at hrun
      exact absurd hrun (by simp)
    | some s1 =>
      rw [hae] at hrun
      exact ih s1 (applyEvent_fetchInv s s1 e hinv hae) hrun

/-- C8: single-flight. Along every interleaving of events starting from the
empty registry — in particular any number of concurrent `requestTiles`
calls for the same coordinate — at most one network fetch is ever issued
per coordinate. -/
theorem network_single_flight (es : List Event) (s' : SysState) (c : TileCoord)
    (hrun : run initState es = some s') : countC c s'.fetchLog ≤ 1 := by
  have hinit : fetchInv initState := by
    intro c0
    refine ⟨fun _ => ⟨rfl, rfl⟩, ?_⟩
    have h0 : countC c0 initState.fetchLog + unfetchedCount c0 initState.jobs = 0 := rfl
    omega
  have hend := (run_fetchInv es initState s' hinit hrun c).2
  omega

/-- Witness for C8: two requests for the same tile followed by its one
fetch issue exactly one network fetch. -/
theorem network_single_flight_witness : countC ⟨2, 1, 1⟩ [⟨2, 1, 1⟩] ≤ 1 :=
  network_single_flight
    [Event.request [⟨2, 1, 1⟩] (some 1) true, Event.request [⟨2, 1, 1⟩] (some 2) true,
      Event.fetch ⟨2, 1, 1⟩]
    ⟨[(⟨2, 1, 1⟩, StoredTile.newPending)],
      [{ coord := ⟨2, 1, 1⟩, callback := some 1, fetched := true }], [⟨2, 1, 1⟩], []⟩
    ⟨2, 1, 1⟩ (by decide)

/-- Number of invocations of a given listener with a given coordinate. -/
def invokeCount (listener : Nat) (c : TileCoord) : List (Nat × TileCoord) → Nat
  | [] => 0
  | p :: rest => (if p = (listener, c) then 1 else 0) + invokeCount listener c rest

/-- C1: refuted on the code as modelled. `StoredTile` has no waiter list,
so when three callers register distinct listeners 1, 2 and 3 for the same
missing coordinate, the Ok transition invokes only listener 1 — the one
captured by the dispatched load job — exactly once; listeners 2 and 3 are
never invoked, and no job remains that could still invoke them. -/
theorem waiter_list_not_drained :
    (run initState
      [Event.request [⟨2, 1, 1⟩] (some 1) true,
        Event.request [⟨2, 1, 1⟩] (some 2) true,
        Event.request [⟨2, 1, 1⟩] (some 3) true,
        Event.completeOk ⟨2, 1, 1⟩ ⟨7⟩]).map
      (fun s => (invokeCount 1 ⟨2, 1, 1⟩ s.invokeLog,
        invokeCount 2 ⟨2, 1, 1⟩ s.invokeLog,
        invokeCount 3 ⟨2, 1, 1⟩ s.invokeLog, s.jobs))
      = some (1, 0, 0, []) := rfl

/-- C6: partly refuted on the code as modelled. A listener (5) registered
by a second `requestTiles` call while the entry is `Pending` is never
invoked on the Ok transition — only the creator's listener (4) is; and, as
the claim states, a non-Ok terminal transition invokes no listener at
all. -/
theorem pending_listener_dropped :
    (run initState
      [Event.request [⟨3, 0, 0⟩] (some 4) true,
        Event.request [⟨3, 0, 0⟩] (some 5) true,
        Event.completeOk ⟨3, 0, 0⟩ ⟨9⟩]).map
      (fun s => (invokeCount 4 ⟨3, 0, 0⟩ s.invokeLog,
        invokeCount 5 ⟨3, 0, 0⟩ s.invokeLog)) = some (1, 0) ∧
    (run initState
      [Event.request [⟨3, 4, 5⟩] (some 6) true,
        Event.completeFail ⟨3, 4, 5⟩ Bach.LoadedTileState.UnknownError]).map
      (fun s => s.invokeLog) = some [] :=
  ⟨rfl, rfl⟩
